import Mathlib

/-!
Shallow embedding of the Sunshine/Steam reconciliation tool (`main.py`):
launch-entry data model, Steam AppID extraction, entry scoring,
deduplication, reconciliation against the installed-game set, the retry
loops of the two network fetchers, the launch-command builder, and the
orchestrator's action sequence.  Theorems about the embedding follow the
definitions.
-/

namespace SunshineApp

/-- A Sunshine launch entry (one `app` dict of `apps.json`).  Only the
fields the algorithms read are modelled; a key that is absent from the
dict is `none`, a key mapped to the empty string is `some ""`. -/
structure App where
  name : Option String
  cmd : Option String
  imagePath : Option String
deriving DecidableEq, Repr, Inhabited

/-- Python truthiness of an optional string field: present and non-empty. -/
def truthy : Option String → Bool
  | none => false
  | some s => !(s == "")

/-- The literal part of the pattern used to recognise Steam launch
commands, in lowercase: the characters of the rungameid URI marker. -/
def steamMarkerChars : List Char :=
  ['s', 't', 'e', 'a', 'm', ':', '/', '/', 'r', 'u', 'n', 'g', 'a', 'm', 'e', 'i', 'd', '/']

/-- Case-insensitive prefix test: the pattern (given in lowercase) matches
a prefix of the candidate, mirroring the IGNORECASE flag on the regex. -/
def isPrefixCI : List Char → List Char → Bool
  | [], _ => true
  | _ :: _, [] => false
  | p :: ps, c :: cs => (c.toLower == p) && isPrefixCI ps cs

/-- Maximal leading run of decimal digits: the greedy digit capture group
of the pattern. -/
def takeDigits : List Char → List Char
  | [] => []
  | c :: cs => if c.isDigit then c :: takeDigits cs else []

/-- Leftmost occurrence of the marker followed by at least one digit,
returning the maximal digit run after it, as the regex search does. -/
def findRunGameId : List Char → Option String
  | [] => none
  | c :: cs =>
    if isPrefixCI steamMarkerChars (c :: cs) then
      let ds := takeDigits (List.drop steamMarkerChars.length (c :: cs))
      if ds.isEmpty then findRunGameId cs else some (String.mk ds)
    else findRunGameId cs

/-- `extract_steam_app_id` of `main.py`: the Steam AppID encoded in a
launch command, or `none` when the pattern is absent. -/
def extract_steam_app_id (cmd : String) : Option String :=
  if cmd = "" then none else findRunGameId cmd.data

/-- `_score_app_for_keep` of `main.py`: 10 points for a truthy
image-path, 3 points for a truthy name, added independently. -/
def score_app_for_keep (app : App) : Nat :=
  (if truthy app.imagePath then 10 else 0) + (if truthy app.name then 3 else 0)

/-- Drop leading whitespace characters. -/
def dropLeadingWs : List Char → List Char
  | [] => []
  | c :: cs => if c.isWhitespace then dropLeadingWs cs else c :: cs

/-- Python `str.strip()`: remove leading and trailing whitespace. -/
def strip (s : String) : String :=
  String.mk (List.reverse (dropLeadingWs (List.reverse (dropLeadingWs s.data))))

/-- First-match association-list lookup, modelling Python dict access. -/
def alookup {β : Type} (k : String) : List (String × β) → Option β
  | [] => none
  | (k', v) :: rest => if k' = k then some v else alookup k rest

/-- The loop state of `dedupe_sunshine_apps`: the output accumulators
plus the `steam_index` dict (AppID to position in `deduped`) and the
`other_seen` set of (name, cmd) keys. -/
structure DedupeState where
  deduped : List App
  removed : List App
  steamIndex : List (String × Nat)
  otherSeen : List (String × String)
deriving Repr

/-- One iteration of the `dedupe_sunshine_apps` loop. -/
def dedupeStep (st : DedupeState) (app : App) : DedupeState :=
  let cmd := strip (app.cmd.getD "")
  let nm := strip (app.name.getD "")
  match extract_steam_app_id cmd with
  | some sid =>
    match alookup sid st.steamIndex with
    | none =>
      { st with steamIndex := (sid, st.deduped.length) :: st.steamIndex,
                deduped := st.deduped ++ [app] }
    | some i =>
      let current := st.deduped.getD i default
      if score_app_for_keep current < score_app_for_keep app then
        { st with removed := st.removed ++ [current],
                  deduped := st.deduped.set i app }
      else
        { st with removed := st.removed ++ [app] }
  | none =>
    if (nm, cmd) ∈ st.otherSeen then
      { st with removed := st.removed ++ [app] }
    else
      { st with otherSeen := (nm, cmd) :: st.otherSeen,
                deduped := st.deduped ++ [app] }

/-- `dedupe_sunshine_apps` of `main.py`: one pass over the entries,
returning the kept and the removed entries. -/
def dedupe_sunshine_apps (apps : List App) : List App × List App :=
  let st := apps.foldl dedupeStep ⟨[], [], [], []⟩
  (st.deduped, st.removed)

/-- The final loop state of the dedupe pass. -/
def dedupeRun (apps : List App) : DedupeState :=
  apps.foldl dedupeStep ⟨[], [], [], []⟩

/-- The identifier the dedupe pass extracts from an entry: the AppID of
the trimmed launch command. -/
def trackedId (app : App) : Option String :=
  extract_steam_app_id (strip (app.cmd.getD ""))

/-- The key the dedupe pass uses for entries without an identifier. -/
def opaqueKey (app : App) : String × String :=
  (strip (app.name.getD ""), strip (app.cmd.getD ""))

/-- The deduplication key of an entry: its identifier when tracked, its
(name, cmd) pair when opaque. -/
def appKey (app : App) : String ⊕ (String × String) :=
  match trackedId app with
  | some sid => Sum.inl sid
  | none => Sum.inr (opaqueKey app)

/-- The invariant the `dedupe_sunshine_apps` loop maintains: the
`steam_index` dict maps an AppID to the position of the unique kept
entry carrying it (soundly and completely), the `other_seen` set holds
exactly the keys of the kept opaque entries, and no two kept entries
share a deduplication key. -/
structure DedupeInv (st : DedupeState) : Prop where
  idx_sound : ∀ sid i, alookup sid st.steamIndex = some i →
    ∃ h : i < st.deduped.length, trackedId (st.deduped[i]) = some sid
  idx_complete : ∀ i sid, (h : i < st.deduped.length) →
    trackedId (st.deduped[i]) = some sid →
    alookup sid st.steamIndex = some i
  seen_sound : ∀ b ∈ st.deduped, trackedId b = none → opaqueKey b ∈ st.otherSeen
  seen_complete : ∀ k ∈ st.otherSeen,
    ∃ b ∈ st.deduped, trackedId b = none ∧ opaqueKey b = k
  key_nodup : (st.deduped.map appKey).Nodup

/-- The accumulators of the `process_existing_apps` loop: the kept
entries, the removed (name, AppID) pairs, the matched AppIDs
(`existing_steam_apps`, a set), and the artwork deletions attempted
(path together with whether the deletion succeeded). -/
structure ProcResult where
  kept : List App
  removedGames : List (String × String)
  matched : List String
  deletions : List (String × Bool)
deriving DecidableEq, Repr

/-- One iteration of the `process_existing_apps` loop.  `fsExists` tells
whether a path exists on disk, `delOk` whether removing it succeeds; a
failed removal is only logged, so it changes nothing but the recorded
outcome. -/
def processStep (fsExists delOk : String → Bool) (installed : List (String × String))
    (st : ProcResult) (app : App) : ProcResult :=
  let cmd := app.cmd.getD ""
  match extract_steam_app_id cmd with
  | some sid =>
    if (alookup sid installed).isSome then
      { st with kept := st.kept ++ [app],
                matched := if sid ∈ st.matched then st.matched else st.matched ++ [sid] }
    else
      let grid := app.imagePath.getD ""
      if truthy app.imagePath && fsExists grid then
        { st with removedGames := st.removedGames ++ [(app.name.getD "Unknown", sid)],
                  deletions := st.deletions ++ [(grid, delOk grid)] }
      else
        { st with removedGames := st.removedGames ++ [(app.name.getD "Unknown", sid)] }
  | none => { st with kept := st.kept ++ [app] }

/-- `process_existing_apps` of `main.py`: reconcile the existing entries
against the installed-game map. -/
def process_existing_apps (fsExists delOk : String → Bool)
    (apps : List App) (installed : List (String × String)) : ProcResult :=
  apps.foldl (processStep fsExists delOk installed) ⟨[], [], [], []⟩

/-- The disposal rule as the specification states it: an entry is kept
iff its launch command yields no identifier or the identifier is a key
of the installed-game map. -/
def keepCond (installed : List (String × String)) (app : App) : Bool :=
  match extract_steam_app_id (app.cmd.getD "") with
  | none => true
  | some sid => (alookup sid installed).isSome

/-- The (display name, identifier) record the specification says a
dropped entry leaves behind, `none` for an entry that is kept. -/
def dropRecord (installed : List (String × String)) (app : App) :
    Option (String × String) :=
  match extract_steam_app_id (app.cmd.getD "") with
  | none => none
  | some sid =>
    if (alookup sid installed).isSome then none
    else some (app.name.getD "Unknown", sid)

/-- The identifier a kept tracked entry contributes to the matched set,
`none` otherwise. -/
def matchRecord (installed : List (String × String)) (app : App) : Option String :=
  match extract_steam_app_id (app.cmd.getD "") with
  | none => none
  | some sid => if (alookup sid installed).isSome then some sid else none

/-- The artwork path a dropped entry schedules for deletion (when the
entry carries one and the file exists), `none` otherwise. -/
def deleteRecord (fsExists : String → Bool) (installed : List (String × String))
    (app : App) : Option String :=
  match extract_steam_app_id (app.cmd.getD "") with
  | none => none
  | some sid =>
    if (alookup sid installed).isSome then none
    else if truthy app.imagePath && fsExists (app.imagePath.getD "") then
      some (app.imagePath.getD "")
    else none

/-- `new_games` as `main` computes it: the keys of the installed-game
map minus the matched identifiers. -/
def computeNewGames (installed : List (String × String)) (matched : List String) :
    List String :=
  (installed.map Prod.fst).filter (fun k => !(matched.contains k))

/-- What one attempt of `get_game_name` observes from the network: a
timeout, another request error, an unexpected exception (for instance a
JSON decode failure), or a parsed response.  For a parsed response,
`found` tells whether the AppID key is present with a true success flag,
and `name` is the name field of its data. -/
inductive NameAttempt where
  | timeout
  | requestError
  | badResponse
  | parsed (found : Bool) (nm : Option String)
deriving DecidableEq, Repr

/-- The retry loop of `get_game_name`, driven by an oracle giving each
attempt's observation.  Returns the result and the list of backoff
delays (in seconds) slept between attempts. -/
def gameNameAux (oracle : Nat → NameAttempt) : Nat → Nat → Option String × List Nat
  | 0, _ => (none, [])
  | fuel + 1, attempt =>
    match oracle attempt with
    | .timeout =>
      if attempt < 2 then
        let r := gameNameAux oracle fuel (attempt + 1)
        (r.1, 2 ^ attempt :: r.2)
      else (none, [])
    | .requestError =>
      if attempt < 2 then
        let r := gameNameAux oracle fuel (attempt + 1)
        (r.1, 2 ^ attempt :: r.2)
      else (none, [])
    | .badResponse => (none, [])
    | .parsed found nm =>
      if found then
        match nm with
        | some n => if n = "" then (none, []) else (some n, [])
        | none => (none, [])
      else (none, [])

/-- `get_game_name` of `main.py` as a function of the network oracle:
up to three attempts, sleeping `2 ^ attempt` seconds after each failed
attempt but the last. -/
def get_game_name (oracle : Nat → NameAttempt) : Option String × List Nat :=
  gameNameAux oracle 3 0

/-- Whether a name-lookup attempt outcome raises one of the two
exception classes the retry loop retries. -/
def NameAttempt.transient : NameAttempt → Bool
  | .timeout => true
  | .requestError => true
  | _ => false

/-- What one attempt of `fetch_grid_from_steamgriddb` observes: the
first request may time out, fail, or yield an unparseable or empty
response; then the grid download may itself time out or fail (raising
into the outer handler); finally the downloaded bytes either fail image
validation or save successfully. -/
inductive GridAttempt where
  | timeout
  | requestError
  | badResponse
  | noData
  | gridTimeout
  | gridRequestError
  | imageBad
  | imageOk
deriving DecidableEq, Repr

/-- Whether a grid attempt outcome raises one of the two exception
classes the outer handler retries. -/
def GridAttempt.transient : GridAttempt → Bool
  | .timeout => true
  | .requestError => true
  | .gridTimeout => true
  | .gridRequestError => true
  | _ => false

/-- The retry loop of `fetch_grid_from_steamgriddb`, driven by an
oracle; on success the grid is saved as `appId.png` under the grids
folder.  Returns the result and the backoff delays slept. -/
def gridAux (oracle : Nat → GridAttempt) (appId gridsFolder : String) :
    Nat → Nat → Option String × List Nat
  | 0, _ => (none, [])
  | fuel + 1, attempt =>
    match oracle attempt with
    | .timeout =>
      if attempt < 2 then
        let r := gridAux oracle appId gridsFolder fuel (attempt + 1)
        (r.1, 2 ^ attempt :: r.2)
      else (none, [])
    | .requestError =>
      if attempt < 2 then
        let r := gridAux oracle appId gridsFolder fuel (attempt + 1)
        (r.1, 2 ^ attempt :: r.2)
      else (none, [])
    | .gridTimeout =>
      if attempt < 2 then
        let r := gridAux oracle appId gridsFolder fuel (attempt + 1)
        (r.1, 2 ^ attempt :: r.2)
      else (none, [])
    | .gridRequestError =>
      if attempt < 2 then
        let r := gridAux oracle appId gridsFolder fuel (attempt + 1)
        (r.1, 2 ^ attempt :: r.2)
      else (none, [])
    | .badResponse => (none, [])
    | .noData => (none, [])
    | .imageBad => (none, [])
    | .imageOk => (some (gridsFolder ++ "/" ++ appId ++ ".png"), [])

/-- `fetch_grid_from_steamgriddb` of `main.py` as a function of the
network oracle. -/
def fetch_grid_from_steamgriddb (oracle : Nat → GridAttempt)
    (appId gridsFolder : String) : Option String × List Nat :=
  gridAux oracle appId gridsFolder 3 0

/-- The three platform branches of `build_cmd`: Windows, Linux with the
Flatpak Steam detected, and any other platform. -/
inductive Platform where
  | windows
  | linuxFlatpak
  | linuxPlain
deriving DecidableEq, Repr

/-- `build_cmd` of `main.py`: the launch command written into a newly
added entry. -/
def build_cmd (p : Platform) (appId : String) : String :=
  match p with
  | .windows => "steam://rungameid/" ++ appId
  | .linuxFlatpak => "flatpak run com.valvesoftware.Steam steam://rungameid/" ++ appId
  | .linuxPlain => "steam steam://rungameid/" ++ appId

/-- The entry `add_new_games` builds for one new game (the modelled
fields of the fixed field set). -/
def mkNewApp (p : Platform) (installed : List (String × String))
    (grid : String → Option String) (sid : String) : App :=
  { name := some ((alookup sid installed).getD ""),
    cmd := some (build_cmd p sid),
    imagePath := some ((grid sid).getD "") }

/-- The externally visible actions of one run of `main`, in order. -/
inductive Action where
  | restartSteam
  | makeGridsDir
  | deleteArtwork (path : String)
  | writeConfig (apps : List App)
  | restartSunshine
deriving DecidableEq, Repr

/-- The orchestration of `main` after configuration and loading: dedupe,
make the grids folder, reconcile (deleting stale artwork), compute the
add-set, short-circuit when nothing changed or when in dry-run mode,
otherwise add the new entries, dedupe again and write, then restart the
target launcher.  The result is the ordered list of external actions
performed. -/
def mainPipeline (noRestart dryRun : Bool) (p : Platform)
    (installed : List (String × String)) (apps0 : List App)
    (grid : String → Option String) (fsExists delOk : String → Bool) :
    List Action :=
  let steamActs : List Action := if noRestart then [] else [Action.restartSteam]
  let dd := dedupe_sunshine_apps apps0
  let pr := process_existing_apps fsExists delOk dd.1 installed
  let newGames := computeNewGames installed pr.matched
  let preActs := steamActs ++ [Action.makeGridsDir] ++
    pr.deletions.map (fun d => Action.deleteArtwork d.1)
  let changesNeeded := !dd.2.isEmpty || !pr.removedGames.isEmpty || !newGames.isEmpty
  if !changesNeeded then preActs
  else if dryRun then preActs
  else
    let newApps := newGames.map (mkNewApp p installed grid)
    let finalApps := (dedupe_sunshine_apps (pr.kept ++ newApps)).1
    preActs ++ [Action.writeConfig finalApps] ++
      (if noRestart then [] else [Action.restartSunshine])

/-! Helper lemmas about lists. -/

/-- Setting an index of a list to the element already there is the
identity. -/
theorem list_set_self {α : Type} (l : List α) (i : Nat) (h : i < l.length) :
    l.set i (l[i]) = l := by
  apply List.ext_getElem (by simp)
  intro n h1 h2
  rw [List.getElem_set]
  split
  · subst i; rfl
  · rfl

/-- An element of a list other than the element at the overwritten index
remains a member after `set`. -/
theorem mem_set_of_ne {α : Type} {l : List α} {i : Nat} {a b : α}
    (hb : b ∈ l) (h : i < l.length) (hne : b ≠ l[i]) : b ∈ l.set i a := by
  obtain ⟨j, hj, rfl⟩ := List.mem_iff_getElem.mp hb
  have hij : i ≠ j := by
    intro hEq
    subst hEq
    exact hne rfl
  refine List.mem_iff_getElem.mpr ⟨j, by simpa using hj, ?_⟩
  exact List.getElem_set_ne hij _

/-! Branch equations of the dedupe loop body. -/

/-- A tracked entry with an unseen identifier is appended to `deduped`
and registered in `steam_index`. -/
theorem dedupeStep_tracked_new (st : DedupeState) (a : App) (sid : String)
    (h : trackedId a = some sid) (h2 : alookup sid st.steamIndex = none) :
    dedupeStep st a =
      { st with steamIndex := (sid, st.deduped.length) :: st.steamIndex,
                deduped := st.deduped ++ [a] } := by
  unfold trackedId at h
  simp only [dedupeStep, h, h2]

/-- A tracked entry that outscores the currently kept entry with the
same identifier replaces it in place; the displaced entry is appended to
`removed`. -/
theorem dedupeStep_tracked_replace (st : DedupeState) (a : App) (sid : String) (i : Nat)
    (h : trackedId a = some sid) (h2 : alookup sid st.steamIndex = some i)
    (h3 : score_app_for_keep (st.deduped.getD i default) < score_app_for_keep a) :
    dedupeStep st a =
      { st with removed := st.removed ++ [st.deduped.getD i default],
                deduped := st.deduped.set i a } := by
  unfold trackedId at h
  simp only [dedupeStep, h, h2, if_pos h3]

/-- A tracked entry that does not outscore the currently kept entry with
the same identifier is appended to `removed`. -/
theorem dedupeStep_tracked_drop (st : DedupeState) (a : App) (sid : String) (i : Nat)
    (h : trackedId a = some sid) (h2 : alookup sid st.steamIndex = some i)
    (h3 : ¬ score_app_for_keep (st.deduped.getD i default) < score_app_for_keep a) :
    dedupeStep st a = { st with removed := st.removed ++ [a] } := by
  unfold trackedId at h
  simp only [dedupeStep, h, h2, if_neg h3]

/-- An opaque entry whose key was already seen is appended to
`removed`. -/
theorem dedupeStep_opaque_old (st : DedupeState) (a : App)
    (h : trackedId a = none) (h2 : opaqueKey a ∈ st.otherSeen) :
    dedupeStep st a = { st with removed := st.removed ++ [a] } := by
  unfold trackedId at h
  unfold opaqueKey at h2
  simp only [dedupeStep, h, if_pos h2]

/-- An opaque entry with a fresh key is appended to `deduped` and its
key recorded in `other_seen`. -/
theorem dedupeStep_opaque_new (st : DedupeState) (a : App)
    (h : trackedId a = none) (h2 : opaqueKey a ∉ st.otherSeen) :
    dedupeStep st a =
      { st with otherSeen := opaqueKey a :: st.otherSeen,
                deduped := st.deduped ++ [a] } := by
  unfold trackedId at h
  unfold opaqueKey at h2
  simp only [dedupeStep, h, if_neg h2]
  rfl

/-! The dedupe invariant. -/

/-- The deduplication key identifies a tracked entry. -/
theorem appKey_inl {a : App} {sid : String} :
    appKey a = Sum.inl sid ↔ trackedId a = some sid := by
  unfold appKey
  cases h : trackedId a <;> simp

/-- The deduplication key identifies an opaque entry. -/
theorem appKey_inr {a : App} {k : String × String} :
    appKey a = Sum.inr k ↔ trackedId a = none ∧ opaqueKey a = k := by
  unfold appKey
  cases h : trackedId a <;> simp

/-- Unfolding an association-list lookup one step. -/
theorem alookup_cons {β : Type} (k k' : String) (v : β) (l : List (String × β)) :
    alookup k ((k', v) :: l) = if k' = k then some v else alookup k l := rfl

/-- The invariant holds of the initial dedupe state. -/
theorem dedupeInv_init : DedupeInv ⟨[], [], [], []⟩ := by
  refine ⟨?_, ?_, ?_, ?_, ?_⟩
  · intro sid i h
    simp [alookup] at h
  · intro i sid h
    simp at h
  · intro b hb
    simp at hb
  · intro k hk
    simp at hk
  · simp

/-- Each iteration of the dedupe loop preserves the invariant. -/
theorem dedupeInv_step (st : DedupeState) (a : App) (hst : DedupeInv st) :
    DedupeInv (dedupeStep st a) := by
  cases htr : trackedId a with
  | some sid =>
    have hkeya : appKey a = Sum.inl sid := appKey_inl.mpr htr
    cases hl : alookup sid st.steamIndex with
    | none =>
      rw [dedupeStep_tracked_new st a sid htr hl]
      refine ⟨?_, ?_, ?_, ?_, ?_⟩
      · intro sid' i h
        rw [alookup_cons] at h
        by_cases hs : sid = sid'
        · subst hs
          rw [if_pos rfl] at h
          have hi : i = st.deduped.length := by
            injection h with h
            omega
          subst hi
          refine ⟨by simp, ?_⟩
          have hbnd : st.deduped.length < (st.deduped ++ [a]).length := by simp
          have hget : (st.deduped ++ [a])[st.deduped.length] = a := by
            rw [List.getElem_append_right (by omega)]
            simp
          rw [hget]
          exact htr
        · rw [if_neg hs] at h
          obtain ⟨hlt, hid⟩ := hst.idx_sound sid' i h
          refine ⟨by simp; omega, ?_⟩
          rw [List.getElem_append_left hlt]
          exact hid
      · intro i sid' h hid
        rw [alookup_cons]
        by_cases hi : i < st.deduped.length
        · rw [List.getElem_append_left hi] at hid
          have hold := hst.idx_complete i sid' hi hid
          have hne : sid ≠ sid' := by
            intro hEq
            subst hEq
            rw [hl] at hold
            exact Option.noConfusion hold
          rw [if_neg hne]
          exact hold
        · have hlen : i = st.deduped.length := by
            simp at h
            omega
          subst hlen
          have hget : (st.deduped ++ [a])[st.deduped.length] = a := by
            rw [List.getElem_append_right (by omega)]
            simp
          rw [hget, htr] at hid
          injection hid with hid
          subst hid
          rw [if_pos rfl]
      · intro b hb hbn
        rcases List.mem_append.mp hb with hb | hb
        · exact hst.seen_sound b hb hbn
        · rw [List.mem_singleton.mp hb] at hbn
          rw [htr] at hbn
          exact Option.noConfusion hbn
      · intro k hk
        obtain ⟨b, hb, hbn, hbk⟩ := hst.seen_complete k hk
        exact ⟨b, List.mem_append_left _ hb, hbn, hbk⟩
      · have hnotin : appKey a ∉ st.deduped.map appKey := by
          intro hmem
          obtain ⟨b, hb, hEq⟩ := List.mem_map.mp hmem
          rw [hkeya] at hEq
          have hbid : trackedId b = some sid := appKey_inl.mp hEq
          obtain ⟨j, hj, rfl⟩ := List.mem_iff_getElem.mp hb
          have := hst.idx_complete j sid hj hbid
          rw [hl] at this
          exact Option.noConfusion this
        simp only [List.map_append, List.map_cons, List.map_nil]
        simp [List.nodup_append, hst.key_nodup, hnotin]
    | some i =>
      obtain ⟨hi, hid⟩ := hst.idx_sound sid i hl
      have hgetD : st.deduped.getD i default = st.deduped[i] :=
        List.getD_eq_getElem _ _ hi
      by_cases hsc : score_app_for_keep (st.deduped.getD i default) < score_app_for_keep a
      · rw [dedupeStep_tracked_replace st a sid i htr hl hsc]
        refine ⟨?_, ?_, ?_, ?_, ?_⟩
        · intro sid' j hlk
          obtain ⟨hj, hjd⟩ := hst.idx_sound sid' j hlk
          refine ⟨by simpa using hj, ?_⟩
          by_cases hji : i = j
          · subst hji
            rw [List.getElem_set_self (by simpa using hj)]
            rw [hid] at hjd
            injection hjd with hjd
            subst hjd
            exact htr
          · rw [List.getElem_set_ne hji]
            exact hjd
        · intro j sid' h hjd
          have hj : j < st.deduped.length := by simpa using h
          by_cases hji : i = j
          · subst hji
            rw [List.getElem_set_self h] at hjd
            rw [htr] at hjd
            injection hjd with hjd
            subst hjd
            exact hl
          · rw [List.getElem_set_ne hji] at hjd
            exact hst.idx_complete j sid' hj hjd
        · intro b hb hbn
          rcases List.mem_or_eq_of_mem_set hb with hb | hb
          · exact hst.seen_sound b hb hbn
          · rw [hb, htr] at hbn
            exact Option.noConfusion hbn
        · intro k hk
          obtain ⟨b, hb, hbn, hbk⟩ := hst.seen_complete k hk
          refine ⟨b, ?_, hbn, hbk⟩
          refine mem_set_of_ne hb hi ?_
          intro hEq
          rw [hEq, hid] at hbn
          exact Option.noConfusion hbn
        · rw [List.map_set]
          have hbnd : i < (st.deduped.map appKey).length := by simpa using hi
          have hkeyi : (st.deduped.map appKey)[i] =
              appKey (st.deduped[i]) := List.getElem_map _
          have hkeq : appKey a = appKey (st.deduped[i]) := by
            rw [hkeya]
            exact (appKey_inl.mpr hid).symm
          rw [hkeq, ← hkeyi, list_set_self]
          exact hst.key_nodup
      · rw [dedupeStep_tracked_drop st a sid i htr hl hsc]
        exact ⟨hst.idx_sound, hst.idx_complete, hst.seen_sound, hst.seen_complete,
          hst.key_nodup⟩
  | none =>
    have hkeya : appKey a = Sum.inr (opaqueKey a) := appKey_inr.mpr ⟨htr, rfl⟩
    by_cases hseen : opaqueKey a ∈ st.otherSeen
    · rw [dedupeStep_opaque_old st a htr hseen]
      exact ⟨hst.idx_sound, hst.idx_complete, hst.seen_sound, hst.seen_complete,
        hst.key_nodup⟩
    · rw [dedupeStep_opaque_new st a htr hseen]
      refine ⟨?_, ?_, ?_, ?_, ?_⟩
      · intro sid' j hlk
        obtain ⟨hj, hjd⟩ := hst.idx_sound sid' j hlk
        refine ⟨by simp; omega, ?_⟩
        rw [List.getElem_append_left hj]
        exact hjd
      · intro j sid' h hjd
        by_cases hj : j < st.deduped.length
        · rw [List.getElem_append_left hj] at hjd
          exact hst.idx_complete j sid' hj hjd
        · have hlen : j = st.deduped.length := by
            simp at h
            omega
          subst hlen
          have hget : (st.deduped ++ [a])[st.deduped.length] = a := by
            rw [List.getElem_append_right (by omega)]
            simp
          rw [hget, htr] at hjd
          exact Option.noConfusion hjd
      · intro b hb hbn
        rcases List.mem_append.mp hb with hb | hb
        · exact List.mem_cons_of_mem _ (hst.seen_sound b hb hbn)
        · rw [List.mem_singleton.mp hb]
          exact List.mem_cons_self _ _
      · intro k hk
        rcases List.mem_cons.mp hk with hk | hk
        · exact ⟨a, List.mem_append_right _ (List.mem_singleton.mpr rfl), htr, hk.symm⟩
        · obtain ⟨b, hb, hbn, hbk⟩ := hst.seen_complete k hk
          exact ⟨b, List.mem_append_left _ hb, hbn, hbk⟩
      · have hnotin : appKey a ∉ st.deduped.map appKey := by
          intro hmem
          obtain ⟨b, hb, hEq⟩ := List.mem_map.mp hmem
          rw [hkeya] at hEq
          obtain ⟨hbn, hbk⟩ := appKey_inr.mp hEq
          rw [← hbk] at hseen
          exact hseen (hst.seen_sound b hb hbn)
        simp only [List.map_append, List.map_cons, List.map_nil]
        simp [List.nodup_append, hst.key_nodup, hnotin]

/-- The dedupe pass projects its final loop state. -/
theorem dedupe_eq_run (apps : List App) :
    dedupe_sunshine_apps apps = ((dedupeRun apps).deduped, (dedupeRun apps).removed) := rfl

/-- Folding the dedupe loop body preserves the invariant. -/
theorem dedupeInv_foldl (apps : List App) :
    ∀ st, DedupeInv st → DedupeInv (apps.foldl dedupeStep st) := by
  induction apps with
  | nil =>
    intro st h
    simpa using h
  | cons a l ih =>
    intro st h
    rw [List.foldl_cons]
    exact ih _ (dedupeInv_step st a h)

/-- The invariant holds after the dedupe pass on any input. -/
theorem dedupeInv_run (apps : List App) : DedupeInv (dedupeRun apps) :=
  dedupeInv_foldl apps _ dedupeInv_init

/-- Processing one more entry is one more iteration of the loop. -/
theorem dedupeRun_append (xs : List App) (a : App) :
    dedupeRun (xs ++ [a]) = dedupeStep (dedupeRun xs) a := by
  unfold dedupeRun
  rw [List.foldl_append]
  rfl

/-- C1: `dedupe_sunshine_apps` processes entries in order; a tracked
entry whose identifier is not yet kept is appended to `kept`
tentatively, while a later occurrence of an already-kept identifier
replaces the kept entry in place (at its first-kept position) exactly
when it scores strictly higher, appending the displaced entry to
`removed`, and is itself appended to `removed` otherwise — so ties keep
the earlier-seen entry, and `removed` grows in encounter order. -/
theorem dedupe_tracked_policy (xs : List App) (a : App) (sid : String)
    (h : trackedId a = some sid) :
    ((∀ b ∈ (dedupe_sunshine_apps xs).1, trackedId b ≠ some sid) →
      dedupe_sunshine_apps (xs ++ [a]) =
        ((dedupe_sunshine_apps xs).1 ++ [a], (dedupe_sunshine_apps xs).2)) ∧
    (∀ i, (hi : i < (dedupe_sunshine_apps xs).1.length) →
      trackedId ((dedupe_sunshine_apps xs).1[i]) = some sid →
      (score_app_for_keep ((dedupe_sunshine_apps xs).1[i]) < score_app_for_keep a →
        dedupe_sunshine_apps (xs ++ [a]) =
          ((dedupe_sunshine_apps xs).1.set i a,
           (dedupe_sunshine_apps xs).2 ++ [(dedupe_sunshine_apps xs).1[i]])) ∧
      (¬ score_app_for_keep ((dedupe_sunshine_apps xs).1[i]) < score_app_for_keep a →
        dedupe_sunshine_apps (xs ++ [a]) =
          ((dedupe_sunshine_apps xs).1, (dedupe_sunshine_apps xs).2 ++ [a]))) := by
  have hinv := dedupeInv_run xs
  constructor
  · intro hfresh
    have hl : alookup sid (dedupeRun xs).steamIndex = none := by
      cases hlk : alookup sid (dedupeRun xs).steamIndex with
      | none => rfl
      | some i =>
        obtain ⟨hi, hid⟩ := hinv.idx_sound sid i hlk
        have hmem : (dedupeRun xs).deduped[i] ∈ (dedupe_sunshine_apps xs).1 := by
          rw [dedupe_eq_run]
          exact List.getElem_mem hi
        exact absurd hid (hfresh _ hmem)
    rw [dedupe_eq_run, dedupe_eq_run, dedupeRun_append,
      dedupeStep_tracked_new _ a sid h hl]
  · intro i hi hid
    have hi' : i < (dedupeRun xs).deduped.length := hi
    have hid' : trackedId ((dedupeRun xs).deduped[i]) = some sid := hid
    have hl : alookup sid (dedupeRun xs).steamIndex = some i :=
      hinv.idx_complete i sid hi' hid'
    have hgetD : (dedupeRun xs).deduped.getD i default = (dedupeRun xs).deduped[i] :=
      List.getD_eq_getElem _ _ hi'
    constructor
    · intro hsc
      have hsc' : score_app_for_keep ((dedupeRun xs).deduped.getD i default) <
          score_app_for_keep a := by
        rw [hgetD]
        exact hsc
      have heq := dedupeStep_tracked_replace (dedupeRun xs) a sid i h hl hsc'
      show ((dedupeRun (xs ++ [a])).deduped, (dedupeRun (xs ++ [a])).removed) = _
      rw [dedupeRun_append, heq, hgetD]
      rfl
    · intro hsc
      have hsc' : ¬ score_app_for_keep ((dedupeRun xs).deduped.getD i default) <
          score_app_for_keep a := by
        rw [hgetD]
        exact hsc
      have heq := dedupeStep_tracked_drop (dedupeRun xs) a sid i h hl hsc'
      show ((dedupeRun (xs ++ [a])).deduped, (dedupeRun (xs ++ [a])).removed) = _
      rw [dedupeRun_append, heq]
      rfl

/-- A witness for the C1 theorem exercising its three branches: first
occurrence appended, higher-scoring later occurrence replacing in
place, lower-scoring later occurrence removed. -/
theorem dedupe_tracked_policy_witness :
    dedupe_sunshine_apps ([] ++ [⟨some "G", some "steam://rungameid/7", some ""⟩]) =
      ([⟨some "G", some "steam://rungameid/7", some ""⟩], []) ∧
    dedupe_sunshine_apps ([⟨none, some "steam://rungameid/7", none⟩] ++
        [⟨some "H", some "steam://rungameid/7", some "img"⟩]) =
      ([⟨some "H", some "steam://rungameid/7", some "img"⟩],
       [⟨none, some "steam://rungameid/7", none⟩]) ∧
    dedupe_sunshine_apps ([⟨some "H", some "steam://rungameid/7", some "img"⟩] ++
        [⟨none, some "steam://rungameid/7", none⟩]) =
      ([⟨some "H", some "steam://rungameid/7", some "img"⟩],
       [⟨none, some "steam://rungameid/7", none⟩]) :=
  ⟨(dedupe_tracked_policy [] ⟨some "G", some "steam://rungameid/7", some ""⟩ "7"
      (by decide)).1 (by decide),
   ((dedupe_tracked_policy [⟨none, some "steam://rungameid/7", none⟩]
      ⟨some "H", some "steam://rungameid/7", some "img"⟩ "7" (by decide)).2
      0 (by decide) (by decide)).1 (by decide),
   ((dedupe_tracked_policy [⟨some "H", some "steam://rungameid/7", some "img"⟩]
      ⟨none, some "steam://rungameid/7", none⟩ "7" (by decide)).2
      0 (by decide) (by decide)).2 (by decide)⟩

/-- Folding the dedupe loop over entries whose keys are pairwise fresh
and fresh for the current state appends them all and removes nothing. -/
theorem dedupe_foldl_fresh (ys : List App) :
    ∀ st : DedupeState, DedupeInv st →
    (∀ a ∈ ys, ∀ b ∈ st.deduped, appKey a ≠ appKey b) →
    (ys.map appKey).Nodup →
    (ys.foldl dedupeStep st).deduped = st.deduped ++ ys ∧
    (ys.foldl dedupeStep st).removed = st.removed := by
  induction ys with
  | nil =>
    intro st hst hfresh hnd
    simp
  | cons a ys ih =>
    intro st hst hfresh hnd
    rw [List.foldl_cons]
    have hnd1 : appKey a ∉ ys.map appKey := by
      simp only [List.map_cons] at hnd
      exact (List.nodup_cons.mp hnd).1
    have hnd2 : (ys.map appKey).Nodup := by
      simp only [List.map_cons] at hnd
      exact (List.nodup_cons.mp hnd).2
    have hfresh2 : ∀ a' ∈ ys, ∀ b ∈ st.deduped ++ [a], appKey a' ≠ appKey b := by
      intro a' ha' b hb
      rcases List.mem_append.mp hb with hb | hb
      · exact hfresh a' (List.mem_cons_of_mem _ ha') b hb
      · rw [List.mem_singleton.mp hb]
        intro hEq
        exact hnd1 (hEq ▸ List.mem_map_of_mem appKey ha')
    cases htr : trackedId a with
    | some sid =>
      have hl : alookup sid st.steamIndex = none := by
        cases hlk : alookup sid st.steamIndex with
        | none => rfl
        | some i =>
          obtain ⟨hi, hid⟩ := hst.idx_sound sid i hlk
          have hne := hfresh a (List.mem_cons_self _ _) _ (List.getElem_mem hi)
          exact absurd (by rw [appKey_inl.mpr htr, appKey_inl.mpr hid]) hne
      have heq := dedupeStep_tracked_new st a sid htr hl
      have hst' : DedupeInv (dedupeStep st a) := dedupeInv_step st a hst
      rw [heq] at hst' ⊢
      obtain ⟨ha, hb⟩ := ih _ hst' hfresh2 hnd2
      refine ⟨?_, hb⟩
      rw [ha]
      simp
    | none =>
      have hseen : opaqueKey a ∉ st.otherSeen := by
        intro hmem
        obtain ⟨b, hb, hbn, hbk⟩ := hst.seen_complete _ hmem
        have hne := hfresh a (List.mem_cons_self _ _) b hb
        exact absurd (by rw [appKey_inr.mpr ⟨htr, rfl⟩, appKey_inr.mpr ⟨hbn, hbk⟩]) hne
      have heq := dedupeStep_opaque_new st a htr hseen
      have hst' : DedupeInv (dedupeStep st a) := dedupeInv_step st a hst
      rw [heq] at hst' ⊢
      obtain ⟨ha, hb⟩ := ih _ hst' hfresh2 hnd2
      refine ⟨?_, hb⟩
      rw [ha]
      simp

/-- C4: `dedupe_sunshine_apps` is idempotent — running it again on the
kept output returns that output unchanged together with an empty removed
list. -/
theorem dedupe_idempotent (x : List App) :
    dedupe_sunshine_apps (dedupe_sunshine_apps x).1 = ((dedupe_sunshine_apps x).1, []) := by
  obtain ⟨h1, h2⟩ := dedupe_foldl_fresh (dedupe_sunshine_apps x).1 ⟨[], [], [], []⟩
    dedupeInv_init (by intro a ha b hb; simp at hb) (dedupeInv_run x).key_nodup
  have heq : dedupe_sunshine_apps (dedupe_sunshine_apps x).1 =
      (((dedupe_sunshine_apps x).1.foldl dedupeStep ⟨[], [], [], []⟩).deduped,
       ((dedupe_sunshine_apps x).1.foldl dedupeStep ⟨[], [], [], []⟩).removed) := rfl
  rw [heq, h1, h2]
  rfl

/-- C5: among two tracked entries with the same identifier of which
exactly one carries a non-empty artwork path, dedupe keeps the artwork
one and removes the other, in either input order; the artwork entry
strictly outscores the other because the additive artwork weight (10)
exceeds the name weight (3). -/
theorem dedupe_prefers_artwork (e1 e2 : App) (sid : String)
    (h1 : trackedId e1 = some sid) (h2 : trackedId e2 = some sid)
    (hi1 : truthy e1.imagePath = true) (hi2 : truthy e2.imagePath = false) :
    score_app_for_keep e2 < score_app_for_keep e1 ∧
    dedupe_sunshine_apps [e1, e2] = ([e1], [e2]) ∧
    dedupe_sunshine_apps [e2, e1] = ([e1], [e2]) := by
  have hsc : score_app_for_keep e2 < score_app_for_keep e1 := by
    unfold score_app_for_keep
    rw [hi1, hi2]
    cases truthy e1.name <;> cases truthy e2.name <;> simp
  refine ⟨hsc, ?_, ?_⟩
  · have s1 : dedupeStep ⟨[], [], [], []⟩ e1 = ⟨[e1], [], [(sid, 0)], []⟩ := by
      have h0 : alookup (β := Nat) sid [] = none := rfl
      rw [dedupeStep_tracked_new _ e1 sid h1 h0]
      rfl
    have s2 : dedupeStep ⟨[e1], [], [(sid, 0)], []⟩ e2 = ⟨[e1], [e2], [(sid, 0)], []⟩ := by
      rw [dedupeStep_tracked_drop _ e2 sid 0 h2 (by simp [alookup])
        (by show ¬ score_app_for_keep e1 < score_app_for_keep e2; omega)]
      rfl
    show ((dedupeRun [e1, e2]).deduped, (dedupeRun [e1, e2]).removed) = _
    rw [show dedupeRun [e1, e2] = dedupeStep (dedupeStep ⟨[], [], [], []⟩ e1) e2 from rfl,
      s1, s2]
  · have s1 : dedupeStep ⟨[], [], [], []⟩ e2 = ⟨[e2], [], [(sid, 0)], []⟩ := by
      have h0 : alookup (β := Nat) sid [] = none := rfl
      rw [dedupeStep_tracked_new _ e2 sid h2 h0]
      rfl
    have s2 : dedupeStep ⟨[e2], [], [(sid, 0)], []⟩ e1 = ⟨[e1], [e2], [(sid, 0)], []⟩ := by
      rw [dedupeStep_tracked_replace _ e1 sid 0 h1 (by simp [alookup])
        (by show score_app_for_keep e2 < score_app_for_keep e1; omega)]
      rfl
    show ((dedupeRun [e2, e1]).deduped, (dedupeRun [e2, e1]).removed) = _
    rw [show dedupeRun [e2, e1] = dedupeStep (dedupeStep ⟨[], [], [], []⟩ e2) e1 from rfl,
      s1, s2]

/-- A witness for the C5 theorem at two concrete duplicate entries. -/
theorem dedupe_prefers_artwork_witness :
    score_app_for_keep ⟨none, some "steam://rungameid/10", some ""⟩ <
      score_app_for_keep ⟨some "A", some "steam://rungameid/10", some "x.png"⟩ ∧
    dedupe_sunshine_apps
        [⟨some "A", some "steam://rungameid/10", some "x.png"⟩,
         ⟨none, some "steam://rungameid/10", some ""⟩] =
      ([⟨some "A", some "steam://rungameid/10", some "x.png"⟩],
       [⟨none, some "steam://rungameid/10", some ""⟩]) ∧
    dedupe_sunshine_apps
        [⟨none, some "steam://rungameid/10", some ""⟩,
         ⟨some "A", some "steam://rungameid/10", some "x.png"⟩] =
      ([⟨some "A", some "steam://rungameid/10", some "x.png"⟩],
       [⟨none, some "steam://rungameid/10", some ""⟩]) :=
  dedupe_prefers_artwork
    ⟨some "A", some "steam://rungameid/10", some "x.png"⟩
    ⟨none, some "steam://rungameid/10", some ""⟩
    "10" (by decide) (by decide) (by decide) (by decide)

/-! Characterisation of the reconciliation loop. -/

/-- One iteration of the reconciliation loop, written as the per-entry
disposal records appended to the accumulators. -/
theorem processStep_eq (fsE delOk : String → Bool) (installed : List (String × String))
    (st : ProcResult) (a : App) :
    processStep fsE delOk installed st a =
      { kept := st.kept ++ (if keepCond installed a then [a] else []),
        removedGames := st.removedGames ++ (dropRecord installed a).toList,
        matched := match matchRecord installed a with
          | some sid => if sid ∈ st.matched then st.matched else st.matched ++ [sid]
          | none => st.matched,
        deletions := st.deletions ++
          ((deleteRecord fsE installed a).map (fun p => (p, delOk p))).toList } := by
  unfold processStep keepCond dropRecord matchRecord deleteRecord
  cases h : extract_steam_app_id (a.cmd.getD "") with
  | none => simp [h]
  | some sid =>
    by_cases h2 : (alookup sid installed).isSome = true
    · simp [h, h2]
    · by_cases h3 : (truthy a.imagePath && fsE (a.imagePath.getD "")) = true
      · simp only [h, h2, h3, if_false, if_true, Bool.false_eq_true, Option.toList]
        simp [h2, h3]
      · simp only [h]
        rw [if_neg h2]
        rw [if_neg (by simpa using h3)]
        simp [h2, h3]

/-- The kept output of the reconciliation fold filters the input by the
disposal rule. -/
theorem process_foldl_kept (fsE delOk : String → Bool) (installed : List (String × String)) :
    ∀ (apps : List App) (st : ProcResult),
    (apps.foldl (processStep fsE delOk installed) st).kept =
      st.kept ++ apps.filter (keepCond installed) := by
  intro apps
  induction apps with
  | nil =>
    intro st
    simp
  | cons a l ih =>
    intro st
    rw [List.foldl_cons, ih, processStep_eq, List.filter_cons]
    by_cases h : keepCond installed a = true
    · simp [h]
    · simp [h]

/-- The removed-games output of the reconciliation fold collects the
drop records in encounter order. -/
theorem process_foldl_removed (fsE delOk : String → Bool) (installed : List (String × String)) :
    ∀ (apps : List App) (st : ProcResult),
    (apps.foldl (processStep fsE delOk installed) st).removedGames =
      st.removedGames ++ apps.filterMap (dropRecord installed) := by
  intro apps
  induction apps with
  | nil =>
    intro st
    simp
  | cons a l ih =>
    intro st
    rw [List.foldl_cons, ih, processStep_eq, List.filterMap_cons]
    cases h : dropRecord installed a <;> simp [h]

/-- The deletions output of the reconciliation fold collects the
scheduled artwork deletions in encounter order. -/
theorem process_foldl_deletions (fsE delOk : String → Bool) (installed : List (String × String)) :
    ∀ (apps : List App) (st : ProcResult),
    (apps.foldl (processStep fsE delOk installed) st).deletions =
      st.deletions ++ apps.filterMap
        (fun a => (deleteRecord fsE installed a).map (fun p => (p, delOk p))) := by
  intro apps
  induction apps with
  | nil =>
    intro st
    simp
  | cons a l ih =>
    intro st
    rw [List.foldl_cons, ih, processStep_eq, List.filterMap_cons]
    cases h : deleteRecord fsE installed a <;> simp [h]

/-- Membership in the matched set accumulated by the reconciliation
fold. -/
theorem process_foldl_matched (fsE delOk : String → Bool) (installed : List (String × String)) :
    ∀ (apps : List App) (st : ProcResult) (sid : String),
    sid ∈ (apps.foldl (processStep fsE delOk installed) st).matched ↔
      sid ∈ st.matched ∨ ∃ a ∈ apps, matchRecord installed a = some sid := by
  intro apps
  induction apps with
  | nil =>
    intro st sid
    simp
  | cons a l ih =>
    intro st sid
    rw [List.foldl_cons, ih, processStep_eq]
    cases hm : matchRecord installed a with
    | none =>
      simp only [hm]
      constructor
      · intro h
        rcases h with h | ⟨b, hb, hbr⟩
        · exact Or.inl h
        · exact Or.inr ⟨b, List.mem_cons_of_mem _ hb, hbr⟩
      · intro h
        rcases h with h | ⟨b, hb, hbr⟩
        · exact Or.inl h
        · rcases List.mem_cons.mp hb with rfl | hb
          · rw [hm] at hbr
            exact Option.noConfusion hbr
          · exact Or.inr ⟨b, hb, hbr⟩
    | some sid' =>
      by_cases hmem : sid' ∈ st.matched
      · simp only [hm, if_pos hmem]
        constructor
        · intro h
          rcases h with h | ⟨b, hb, hbr⟩
          · exact Or.inl h
          · exact Or.inr ⟨b, List.mem_cons_of_mem _ hb, hbr⟩
        · intro h
          rcases h with h | ⟨b, hb, hbr⟩
          · exact Or.inl h
          · rcases List.mem_cons.mp hb with rfl | hb
            · rw [hm] at hbr
              injection hbr with hbr
              exact Or.inl (hbr ▸ hmem)
            · exact Or.inr ⟨b, hb, hbr⟩
      · simp only [hm, if_neg hmem]
        constructor
        · intro h
          rcases h with h | ⟨b, hb, hbr⟩
          · rcases List.mem_append.mp h with h | h
            · exact Or.inl h
            · refine Or.inr ⟨a, List.mem_cons_self _ _, ?_⟩
              rw [hm, List.mem_singleton.mp h]
          · exact Or.inr ⟨b, List.mem_cons_of_mem _ hb, hbr⟩
        · intro h
          rcases h with h | ⟨b, hb, hbr⟩
          · exact Or.inl (List.mem_append_left _ h)
          · rcases List.mem_cons.mp hb with rfl | hb
            · rw [hm] at hbr
              injection hbr with hbr
              exact Or.inl (List.mem_append_right _ (List.mem_singleton.mpr hbr.symm))
            · exact Or.inr ⟨b, hb, hbr⟩

/-- A kept entry is never recorded as dropped. -/
theorem dropRecord_eq_none {installed : List (String × String)} {a : App}
    (h : keepCond installed a = true) : dropRecord installed a = none := by
  unfold keepCond at h
  unfold dropRecord
  cases he : extract_steam_app_id (a.cmd.getD "") with
  | none => rfl
  | some sid =>
    rw [he] at h
    simp at h
    simp [h]

/-- C2: reconciliation disposes of each entry by the specified rule —
opaque entries are always kept; a tracked entry is kept and its
identifier matched exactly when the identifier is a key of the
installed-game map, and is otherwise dropped with its (display name,
identifier) record, its existing artwork being scheduled for deletion;
the kept, removed and matched results do not depend on whether the
artwork file exists or its deletion succeeds. -/
theorem process_existing_spec (fsE delOk fsE' delOk' : String → Bool)
    (apps : List App) (installed : List (String × String)) :
    (process_existing_apps fsE delOk apps installed).kept =
        apps.filter (keepCond installed) ∧
    (process_existing_apps fsE delOk apps installed).removedGames =
        apps.filterMap (dropRecord installed) ∧
    (∀ sid, sid ∈ (process_existing_apps fsE delOk apps installed).matched ↔
        ∃ a ∈ apps, matchRecord installed a = some sid) ∧
    (process_existing_apps fsE delOk apps installed).deletions =
        apps.filterMap (fun a => (deleteRecord fsE installed a).map (fun p => (p, delOk p))) ∧
    (process_existing_apps fsE delOk apps installed).kept =
        (process_existing_apps fsE' delOk' apps installed).kept ∧
    (process_existing_apps fsE delOk apps installed).removedGames =
        (process_existing_apps fsE' delOk' apps installed).removedGames ∧
    (∀ sid, sid ∈ (process_existing_apps fsE delOk apps installed).matched ↔
        sid ∈ (process_existing_apps fsE' delOk' apps installed).matched) := by
  have hk := process_foldl_kept fsE delOk installed apps ⟨[], [], [], []⟩
  have hr := process_foldl_removed fsE delOk installed apps ⟨[], [], [], []⟩
  have hd := process_foldl_deletions fsE delOk installed apps ⟨[], [], [], []⟩
  have hk' := process_foldl_kept fsE' delOk' installed apps ⟨[], [], [], []⟩
  have hr' := process_foldl_removed fsE' delOk' installed apps ⟨[], [], [], []⟩
  refine ⟨by simpa using hk, by simpa using hr, ?_, by simpa using hd, ?_, ?_, ?_⟩
  · intro sid
    have hm := process_foldl_matched fsE delOk installed apps ⟨[], [], [], []⟩ sid
    simpa using hm
  · show (apps.foldl (processStep fsE delOk installed) ⟨[], [], [], []⟩).kept =
        (apps.foldl (processStep fsE' delOk' installed) ⟨[], [], [], []⟩).kept
    rw [hk, hk']
  · show (apps.foldl (processStep fsE delOk installed) ⟨[], [], [], []⟩).removedGames =
        (apps.foldl (processStep fsE' delOk' installed) ⟨[], [], [], []⟩).removedGames
    rw [hr, hr']
  · intro sid
    have hm := process_foldl_matched fsE delOk installed apps ⟨[], [], [], []⟩ sid
    have hm' := process_foldl_matched fsE' delOk' installed apps ⟨[], [], [], []⟩ sid
    exact hm.trans hm'.symm

/-- C6: reconciliation is idempotent — reconciling the kept output once
more against the same installed-game map removes no games and keeps the
sequence unchanged. -/
theorem process_reconcile_idempotent (fsE delOk : String → Bool) (apps : List App)
    (installed : List (String × String)) :
    (process_existing_apps fsE delOk
        (process_existing_apps fsE delOk apps installed).kept installed).removedGames = [] ∧
    (process_existing_apps fsE delOk
        (process_existing_apps fsE delOk apps installed).kept installed).kept =
      (process_existing_apps fsE delOk apps installed).kept := by
  have hk : (process_existing_apps fsE delOk apps installed).kept =
      apps.filter (keepCond installed) := by
    simpa using process_foldl_kept fsE delOk installed apps ⟨[], [], [], []⟩
  constructor
  · have hr := process_foldl_removed fsE delOk installed
      (process_existing_apps fsE delOk apps installed).kept ⟨[], [], [], []⟩
    show (((process_existing_apps fsE delOk apps installed).kept).foldl
        (processStep fsE delOk installed) ⟨[], [], [], []⟩).removedGames = []
    rw [hr]
    simp only [List.nil_append]
    apply List.filterMap_eq_nil_iff.mpr
    intro a ha
    rw [hk] at ha
    exact dropRecord_eq_none (List.mem_filter.mp ha).2
  · have hk2 := process_foldl_kept fsE delOk installed
      (process_existing_apps fsE delOk apps installed).kept ⟨[], [], [], []⟩
    show (((process_existing_apps fsE delOk apps installed).kept).foldl
        (processStep fsE delOk installed) ⟨[], [], [], []⟩).kept = _
    rw [hk2]
    simp only [List.nil_append]
    nth_rewrite 1 [hk]
    rw [List.filter_filter]
    simp only [Bool.and_self]
    exact hk.symm

/-- C3: the add-set `main` computes is exactly the keys of the
installed-game map minus the matched identifiers returned by
reconciliation; at the concrete instance with installed identifiers 1,
2, 3 and existing tracked entries for 1 and 2, the add-set is exactly
the identifier 3. -/
theorem new_games_set_difference :
    (∀ (fsE delOk : String → Bool) (apps : List App)
        (installed : List (String × String)) (k : String),
      k ∈ computeNewGames installed (process_existing_apps fsE delOk apps installed).matched ↔
        k ∈ installed.map Prod.fst ∧
        k ∉ (process_existing_apps fsE delOk apps installed).matched) ∧
    computeNewGames [("1", "GameA"), ("2", "GameB"), ("3", "GameC")]
        (process_existing_apps (fun _ => false) (fun _ => false)
          [⟨some "A", some "steam://rungameid/1", some ""⟩,
           ⟨some "B", some "steam://rungameid/2", some ""⟩]
          [("1", "GameA"), ("2", "GameB"), ("3", "GameC")]).matched = ["3"] := by
  constructor
  · intro fsE delOk apps installed k
    unfold computeNewGames
    simp [List.mem_filter]
  · decide

/-! Orchestrator frame effects. -/

/-- C7: when the dedupe pass removes nothing, reconciliation removes no
games and the add-set is empty, the orchestrator stops before the add
phase — the entry list is never written and the target launcher is
never restarted. -/
theorem no_changes_no_write (noRestart dryRun : Bool) (p : Platform)
    (installed : List (String × String)) (apps0 : List App)
    (grid : String → Option String) (fsE delOk : String → Bool)
    (h1 : (dedupe_sunshine_apps apps0).2 = [])
    (h2 : (process_existing_apps fsE delOk (dedupe_sunshine_apps apps0).1
        installed).removedGames = [])
    (h3 : computeNewGames installed
        (process_existing_apps fsE delOk (dedupe_sunshine_apps apps0).1
          installed).matched = []) :
    (∀ l, Action.writeConfig l ∉
        mainPipeline noRestart dryRun p installed apps0 grid fsE delOk) ∧
    Action.restartSunshine ∉
        mainPipeline noRestart dryRun p installed apps0 grid fsE delOk := by
  constructor
  · intro l
    unfold mainPipeline
    simp only [h1, h2, h3]
    cases noRestart <;> simp
  · unfold mainPipeline
    simp only [h1, h2, h3]
    cases noRestart <;> simp

/-- A witness for the C7 theorem on an entirely empty run. -/
theorem no_changes_no_write_witness :
    Action.writeConfig [] ∉
        mainPipeline true false Platform.windows [] [] (fun _ => none)
          (fun _ => false) (fun _ => false) ∧
    Action.restartSunshine ∉
        mainPipeline true false Platform.windows [] [] (fun _ => none)
          (fun _ => false) (fun _ => false) :=
  ⟨(no_changes_no_write true false Platform.windows [] [] (fun _ => none)
      (fun _ => false) (fun _ => false) rfl rfl rfl).1 [],
   (no_changes_no_write true false Platform.windows [] [] (fun _ => none)
      (fun _ => false) (fun _ => false) rfl rfl rfl).2⟩

/-- C8 counterexample: a dry run whose reconciliation drops a stale
tracked entry still deletes that entry's artwork file from disk (after
creating the grids folder), so a dry run does perform file-system
changes. -/
theorem dry_run_deletes_artwork :
    mainPipeline true true Platform.windows []
        [⟨some "G", some "steam://rungameid/7", some "p"⟩]
        (fun _ => none) (fun _ => true) (fun _ => true) =
      [Action.makeGridsDir, Action.deleteArtwork "p"] := by decide

/-- C8 amended: in dry-run mode the orchestrator stops after computing
the diff without writing the entry list and without restarting the
target launcher, regardless of whether changes are needed; side effects
of the earlier phases (source-launcher restart, grids-folder creation,
stale-artwork deletion during reconciliation) still occur. -/
theorem dry_run_no_write_no_restart (noRestart : Bool) (p : Platform)
    (installed : List (String × String)) (apps0 : List App)
    (grid : String → Option String) (fsE delOk : String → Bool) :
    (∀ l, Action.writeConfig l ∉
        mainPipeline noRestart true p installed apps0 grid fsE delOk) ∧
    Action.restartSunshine ∉
        mainPipeline noRestart true p installed apps0 grid fsE delOk := by
  constructor
  · intro l
    unfold mainPipeline
    split
    · cases noRestart <;> simp
    · simp only [if_pos rfl]
      cases noRestart <;> simp
  · unfold mainPipeline
    split
    · cases noRestart <;> simp
    · simp only [if_pos rfl]
      cases noRestart <;> simp

/-! The retry loops of the two network fetchers. -/

/-- A transient failure before the last attempt sleeps the current
backoff delay and retries the name lookup. -/
theorem gameNameAux_transient_step (oracle : Nat → NameAttempt) (fuel attempt : Nat)
    (h : (oracle attempt).transient = true) (h2 : attempt < 2) :
    gameNameAux oracle (fuel + 1) attempt =
      ((gameNameAux oracle fuel (attempt + 1)).1,
       2 ^ attempt :: (gameNameAux oracle fuel (attempt + 1)).2) := by
  cases hh : oracle attempt <;> rw [hh] at h <;>
    simp_all [gameNameAux, NameAttempt.transient]

/-- A transient failure on the last attempt exhausts the name lookup,
which resolves to absent. -/
theorem gameNameAux_transient_last (oracle : Nat → NameAttempt) (fuel : Nat)
    (h : (oracle 2).transient = true) :
    gameNameAux oracle (fuel + 1) 2 = (none, []) := by
  cases hh : oracle 2 <;> rw [hh] at h <;>
    simp_all [gameNameAux, NameAttempt.transient]

/-- An unexpected response exception resolves the name lookup to absent
at once, with no retry and no sleep. -/
theorem gameNameAux_absent (oracle : Nat → NameAttempt) (fuel attempt : Nat)
    (h : oracle attempt = NameAttempt.badResponse) :
    gameNameAux oracle (fuel + 1) attempt = (none, []) := by
  simp [gameNameAux, h]

/-- A transient failure before the last attempt sleeps the current
backoff delay and retries the grid fetch. -/
theorem gridAux_transient_step (oracle : Nat → GridAttempt) (appId gridsFolder : String)
    (fuel attempt : Nat)
    (h : (oracle attempt).transient = true) (h2 : attempt < 2) :
    gridAux oracle appId gridsFolder (fuel + 1) attempt =
      ((gridAux oracle appId gridsFolder fuel (attempt + 1)).1,
       2 ^ attempt :: (gridAux oracle appId gridsFolder fuel (attempt + 1)).2) := by
  cases hh : oracle attempt <;> rw [hh] at h <;>
    simp_all [gridAux, GridAttempt.transient]

/-- A transient failure on the last attempt exhausts the grid fetch,
which resolves to absent. -/
theorem gridAux_transient_last (oracle : Nat → GridAttempt) (appId gridsFolder : String)
    (fuel : Nat) (h : (oracle 2).transient = true) :
    gridAux oracle appId gridsFolder (fuel + 1) 2 = (none, []) := by
  cases hh : oracle 2 <;> rw [hh] at h <;>
    simp_all [gridAux, GridAttempt.transient]

/-- A decode failure (unparseable response or invalid image bytes)
resolves the grid fetch to absent at once, with no retry and no
sleep. -/
theorem gridAux_absent (oracle : Nat → GridAttempt) (appId gridsFolder : String)
    (fuel attempt : Nat)
    (h : oracle attempt = GridAttempt.badResponse ∨
         oracle attempt = GridAttempt.imageBad) :
    gridAux oracle appId gridsFolder (fuel + 1) attempt = (none, []) := by
  rcases h with h | h <;> simp [gridAux, h]

/-- C9: a per-item name lookup or grid fetch retries transient network
errors up to 3 attempts, sleeping 1 then 2 seconds (the base delay
doubling each attempt), and resolves to absent after exhaustion; a
decode failure (bad JSON or invalid image bytes) after any prefix of
transient failures is never retried and resolves the item to absent at
once. -/
theorem retry_policy (oracleN : Nat → NameAttempt) (oracleG : Nat → GridAttempt)
    (appId gridsFolder : String) :
    ((∀ i, i < 3 → (oracleN i).transient = true) →
      get_game_name oracleN = (none, [1, 2])) ∧
    (∀ k, k < 3 → (∀ i, i < k → (oracleN i).transient = true) →
      oracleN k = NameAttempt.badResponse →
      get_game_name oracleN = (none, (List.range k).map (2 ^ ·))) ∧
    ((∀ i, i < 3 → (oracleG i).transient = true) →
      fetch_grid_from_steamgriddb oracleG appId gridsFolder = (none, [1, 2])) ∧
    (∀ k, k < 3 → (∀ i, i < k → (oracleG i).transient = true) →
      (oracleG k = GridAttempt.badResponse ∨ oracleG k = GridAttempt.imageBad) →
      fetch_grid_from_steamgriddb oracleG appId gridsFolder =
        (none, (List.range k).map (2 ^ ·))) := by
  refine ⟨?_, ?_, ?_, ?_⟩
  · intro htr
    have e0 : gameNameAux oracleN 3 0 =
        ((gameNameAux oracleN 2 1).1, 1 :: (gameNameAux oracleN 2 1).2) :=
      gameNameAux_transient_step oracleN 2 0 (htr 0 (by omega)) (by omega)
    have e1 : gameNameAux oracleN 2 1 =
        ((gameNameAux oracleN 1 2).1, 2 :: (gameNameAux oracleN 1 2).2) :=
      gameNameAux_transient_step oracleN 1 1 (htr 1 (by omega)) (by omega)
    have e2 : gameNameAux oracleN 1 2 = (none, []) :=
      gameNameAux_transient_last oracleN 0 (htr 2 (by omega))
    show gameNameAux oracleN 3 0 = (none, [1, 2])
    rw [e0, e1, e2]
  · intro k hk htr hbad
    interval_cases k
    · show gameNameAux oracleN 3 0 = _
      rw [show gameNameAux oracleN 3 0 = (none, []) from
        gameNameAux_absent oracleN 2 0 hbad]
      simp
    · have e0 : gameNameAux oracleN 3 0 =
          ((gameNameAux oracleN 2 1).1, 1 :: (gameNameAux oracleN 2 1).2) :=
        gameNameAux_transient_step oracleN 2 0 (htr 0 (by omega)) (by omega)
      have e1 : gameNameAux oracleN 2 1 = (none, []) :=
        gameNameAux_absent oracleN 1 1 hbad
      show gameNameAux oracleN 3 0 = _
      rw [e0, e1]
      simp [List.range_succ]
    · have e0 : gameNameAux oracleN 3 0 =
          ((gameNameAux oracleN 2 1).1, 1 :: (gameNameAux oracleN 2 1).2) :=
        gameNameAux_transient_step oracleN 2 0 (htr 0 (by omega)) (by omega)
      have e1 : gameNameAux oracleN 2 1 =
          ((gameNameAux oracleN 1 2).1, 2 :: (gameNameAux oracleN 1 2).2) :=
        gameNameAux_transient_step oracleN 1 1 (htr 1 (by omega)) (by omega)
      have e2 : gameNameAux oracleN 1 2 = (none, []) :=
        gameNameAux_absent oracleN 0 2 hbad
      show gameNameAux oracleN 3 0 = _
      rw [e0, e1, e2]
      simp [List.range_succ]
  · intro htr
    have e0 : gridAux oracleG appId gridsFolder 3 0 =
        ((gridAux oracleG appId gridsFolder 2 1).1,
         1 :: (gridAux oracleG appId gridsFolder 2 1).2) :=
      gridAux_transient_step oracleG appId gridsFolder 2 0 (htr 0 (by omega)) (by omega)
    have e1 : gridAux oracleG appId gridsFolder 2 1 =
        ((gridAux oracleG appId gridsFolder 1 2).1,
         2 :: (gridAux oracleG appId gridsFolder 1 2).2) :=
      gridAux_transient_step oracleG appId gridsFolder 1 1 (htr 1 (by omega)) (by omega)
    have e2 : gridAux oracleG appId gridsFolder 1 2 = (none, []) :=
      gridAux_transient_last oracleG appId gridsFolder 0 (htr 2 (by omega))
    show gridAux oracleG appId gridsFolder 3 0 = (none, [1, 2])
    rw [e0, e1, e2]
  · intro k hk htr hbad
    interval_cases k
    · show gridAux oracleG appId gridsFolder 3 0 = _
      rw [show gridAux oracleG appId gridsFolder 3 0 = (none, []) from
        gridAux_absent oracleG appId gridsFolder 2 0 hbad]
      simp
    · have e0 : gridAux oracleG appId gridsFolder 3 0 =
          ((gridAux oracleG appId gridsFolder 2 1).1,
           1 :: (gridAux oracleG appId gridsFolder 2 1).2) :=
        gridAux_transient_step oracleG appId gridsFolder 2 0 (htr 0 (by omega)) (by omega)
      have e1 : gridAux oracleG appId gridsFolder 2 1 = (none, []) :=
        gridAux_absent oracleG appId gridsFolder 1 1 hbad
      show gridAux oracleG appId gridsFolder 3 0 = _
      rw [e0, e1]
      simp [List.range_succ]
    · have e0 : gridAux oracleG appId gridsFolder 3 0 =
          ((gridAux oracleG appId gridsFolder 2 1).1,
           1 :: (gridAux oracleG appId gridsFolder 2 1).2) :=
        gridAux_transient_step oracleG appId gridsFolder 2 0 (htr 0 (by omega)) (by omega)
      have e1 : gridAux oracleG appId gridsFolder 2 1 =
          ((gridAux oracleG appId gridsFolder 1 2).1,
           2 :: (gridAux oracleG appId gridsFolder 1 2).2) :=
        gridAux_transient_step oracleG appId gridsFolder 1 1 (htr 1 (by omega)) (by omega)
      have e2 : gridAux oracleG appId gridsFolder 1 2 = (none, []) :=
        gridAux_absent oracleG appId gridsFolder 0 2 hbad
      show gridAux oracleG appId gridsFolder 3 0 = _
      rw [e0, e1, e2]
      simp [List.range_succ]

/-- A witness exercising all four retry-policy conjuncts at concrete
oracles. -/
theorem retry_policy_witness :
    get_game_name (fun _ => NameAttempt.timeout) = (none, [1, 2]) ∧
    get_game_name (fun _ => NameAttempt.badResponse) = (none, []) ∧
    fetch_grid_from_steamgriddb (fun _ => GridAttempt.gridTimeout) "7" "g" =
      (none, [1, 2]) ∧
    fetch_grid_from_steamgriddb
        (fun i => if i = 0 then GridAttempt.requestError else GridAttempt.imageBad)
        "7" "g" = (none, [1]) :=
  ⟨(retry_policy (fun _ => NameAttempt.timeout) (fun _ => GridAttempt.timeout)
      "7" "g").1 (fun i _ => rfl),
   (retry_policy (fun _ => NameAttempt.badResponse) (fun _ => GridAttempt.timeout)
      "7" "g").2.1 0 (by omega) (fun i hi => absurd hi (by omega)) rfl,
   (retry_policy (fun _ => NameAttempt.timeout) (fun _ => GridAttempt.gridTimeout)
      "7" "g").2.2.1 (fun i _ => rfl),
   (retry_policy (fun _ => NameAttempt.timeout)
      (fun i => if i = 0 then GridAttempt.requestError else GridAttempt.imageBad)
      "7" "g").2.2.2 1 (by omega)
      (fun i hi => by interval_cases i; rfl) (Or.inr rfl)⟩

/-! Round trip between the launch-command builder and the identity
extractor. -/

/-- A prefix test only inspects as many characters as the pattern
has. -/
theorem isPrefixCI_append_of_le (pat l r : List Char) (h : pat.length ≤ l.length) :
    isPrefixCI pat (l ++ r) = isPrefixCI pat l := by
  induction pat generalizing l with
  | nil => rfl
  | cons p ps ih =>
    cases l with
    | nil => simp at h
    | cons c cs =>
      show (c.toLower == p && isPrefixCI ps (cs ++ r)) =
        (c.toLower == p && isPrefixCI ps cs)
      rw [ih cs (by simpa using h)]

/-- A lowercase pattern matches itself case-insensitively, whatever
follows. -/
theorem isPrefixCI_self_append (pat rest : List Char)
    (h : ∀ c ∈ pat, c.toLower = c) : isPrefixCI pat (pat ++ rest) = true := by
  induction pat with
  | nil => rfl
  | cons c cs ih =>
    simp only [List.cons_append, isPrefixCI]
    rw [h c (List.mem_cons_self _ _)]
    simp only [beq_self_eq_true, Bool.true_and]
    exact ih (fun c' hc' => h c' (List.mem_cons_of_mem _ hc'))

/-- The digit capture is the whole remainder when it is all digits. -/
theorem takeDigits_all (ds : List Char) (h : ∀ c ∈ ds, c.isDigit = true) :
    takeDigits ds = ds := by
  induction ds with
  | nil => rfl
  | cons c cs ih =>
    simp only [takeDigits]
    rw [if_pos (h c (List.mem_cons_self _ _)),
      ih (fun c' hc' => h c' (List.mem_cons_of_mem _ hc'))]

/-- The search skips a position where the marker does not match. -/
theorem findRunGameId_skip (c : Char) (cs : List Char)
    (h : isPrefixCI steamMarkerChars (c :: cs) = false) :
    findRunGameId (c :: cs) = findRunGameId cs := by
  simp only [findRunGameId, h]
  simp

/-- The search skips a whole prefix at which the marker never
matches. -/
theorem findRunGameId_skip_concat (pre suf : List Char)
    (hno : ∀ k, k < pre.length →
      isPrefixCI steamMarkerChars (pre.drop k ++ suf) = false) :
    findRunGameId (pre ++ suf) = findRunGameId suf := by
  induction pre with
  | nil => rfl
  | cons c cs ih =>
    rw [List.cons_append,
      findRunGameId_skip c (cs ++ suf) (by simpa using hno 0 (by simp))]
    exact ih (fun k hk => by simpa using hno (k + 1) (by simpa using hk))

/-- One unfolding of the search at a cons cell. -/
theorem findRunGameId_cons_eq (c : Char) (cs : List Char) :
    findRunGameId (c :: cs) =
      if isPrefixCI steamMarkerChars (c :: cs) then
        (if (takeDigits (List.drop steamMarkerChars.length (c :: cs))).isEmpty
         then findRunGameId cs
         else some (String.mk (takeDigits (List.drop steamMarkerChars.length (c :: cs)))))
      else findRunGameId cs := rfl

/-- The search succeeds on the marker immediately followed by a
non-empty run of digits, capturing exactly that run. -/
theorem findRunGameId_marker (ds : List Char) (hne : ds ≠ [])
    (hd : ∀ c ∈ ds, c.isDigit = true) :
    findRunGameId (steamMarkerChars ++ ds) = some (String.mk ds) := by
  have hpre : isPrefixCI steamMarkerChars (steamMarkerChars ++ ds) = true :=
    isPrefixCI_self_append _ _ (by decide)
  have hemp : ds.isEmpty = false := by
    cases ds with
    | nil => exact absurd rfl hne
    | cons c cs => rfl
  rw [show steamMarkerChars ++ ds =
      's' :: (['t', 'e', 'a', 'm', ':', '/', '/', 'r', 'u', 'n', 'g', 'a', 'm',
               'e', 'i', 'd', '/'] ++ ds) from rfl,
    findRunGameId_cons_eq,
    show 's' :: (['t', 'e', 'a', 'm', ':', '/', '/', 'r', 'u', 'n', 'g', 'a', 'm',
                  'e', 'i', 'd', '/'] ++ ds) = steamMarkerChars ++ ds from rfl,
    hpre, List.drop_left, takeDigits_all ds hd, hemp]
  simp

/-- A string whose character list is non-empty is not the empty
string. -/
theorem string_ne_empty_of_data {s : String} (h : s.data ≠ []) : s ≠ "" :=
  fun hEq => h (by rw [hEq])

/-- C10: for every identifier made of decimal digits, extracting the
AppID back out of the launch command built for a newly added game
returns exactly that identifier, on each of the three platform branches
(bare Windows URI, Flatpak-wrapped invocation, plain steam
invocation). -/
theorem build_cmd_roundtrip (p : Platform) (appId : String)
    (h1 : appId ≠ "") (h2 : ∀ c ∈ appId.data, c.isDigit = true) :
    extract_steam_app_id (build_cmd p appId) = some appId := by
  obtain ⟨l⟩ := appId
  have hl : l ≠ [] := by
    intro hEq
    apply h1
    rw [hEq]
  cases p with
  | windows =>
    have hdata : ("steam://rungameid/" ++ String.mk l).data = steamMarkerChars ++ l := rfl
    have hcmd : ("steam://rungameid/" ++ String.mk l) ≠ "" :=
      string_ne_empty_of_data (by rw [hdata]; simp [steamMarkerChars])
    show extract_steam_app_id ("steam://rungameid/" ++ String.mk l) = some (String.mk l)
    unfold extract_steam_app_id
    rw [if_neg hcmd, hdata, findRunGameId_marker l hl h2]
  | linuxFlatpak =>
    have hdata : ("flatpak run com.valvesoftware.Steam steam://rungameid/" ++
        String.mk l).data =
        "flatpak run com.valvesoftware.Steam ".data ++ (steamMarkerChars ++ l) := rfl
    have hcmd : ("flatpak run com.valvesoftware.Steam steam://rungameid/" ++
        String.mk l) ≠ "" :=
      string_ne_empty_of_data (by rw [hdata]; simp [steamMarkerChars])
    show extract_steam_app_id
        ("flatpak run com.valvesoftware.Steam steam://rungameid/" ++ String.mk l) =
      some (String.mk l)
    unfold extract_steam_app_id
    rw [if_neg hcmd, hdata]
    rw [findRunGameId_skip_concat _ _ ?hno, findRunGameId_marker l hl h2]
    case hno =>
      intro k hk
      rw [← List.append_assoc,
        isPrefixCI_append_of_le _ _ _ (by simp [steamMarkerChars])]
      revert hk
      revert k
      decide
  | linuxPlain =>
    have hdata : ("steam steam://rungameid/" ++ String.mk l).data =
        "steam ".data ++ (steamMarkerChars ++ l) := rfl
    have hcmd : ("steam steam://rungameid/" ++ String.mk l) ≠ "" :=
      string_ne_empty_of_data (by rw [hdata]; simp [steamMarkerChars])
    show extract_steam_app_id ("steam steam://rungameid/" ++ String.mk l) =
      some (String.mk l)
    unfold extract_steam_app_id
    rw [if_neg hcmd, hdata]
    rw [findRunGameId_skip_concat _ _ ?hno, findRunGameId_marker l hl h2]
    case hno =>
      intro k hk
      rw [← List.append_assoc,
        isPrefixCI_append_of_le _ _ _ (by simp [steamMarkerChars])]
      revert hk
      revert k
      decide

/-- A witness for the C10 round trip at the identifier 42 on all three
platform branches. -/
theorem build_cmd_roundtrip_witness :
    extract_steam_app_id (build_cmd Platform.windows "42") = some "42" ∧
    extract_steam_app_id (build_cmd Platform.linuxFlatpak "42") = some "42" ∧
    extract_steam_app_id (build_cmd Platform.linuxPlain "42") = some "42" :=
  ⟨build_cmd_roundtrip Platform.windows "42" (by decide) (by decide),
   build_cmd_roundtrip Platform.linuxFlatpak "42" (by decide) (by decide),
   build_cmd_roundtrip Platform.linuxPlain "42" (by decide) (by decide)⟩

end SunshineApp
